import Mathlib

/-!
Shallow embedding of `fr::metadata::Metadata`
(src/include/fr/metadata/metadata.h): the class wraps a
`std::map<std::string, std::shared_ptr<std::map<std::string, std::string>>>`
behind one mutex.  `std::map` is embedded as an association list that every
operation keeps strictly sorted by key (the map's iteration order); the mutex
is dropped, so each operation denotes the sequential semantics it has while
holding the lock; a thrown exception becomes `Except.error` carrying the
thrown message.  The `shared_ptr` is embedded as the pointed-to entry itself:
inside one `Metadata` every entry object is referenced only from its own map
slot and no API call ever stores a null pointer, so a write through the
pointer coincides with a write of the map value.
-/

/-- Decidability of the string order through the character lists.  The
standard decision procedure is defined by well-founded recursion over
iterators and does not evaluate inside the kernel; this one does, so the
operations below compute on concrete inputs. -/
instance (a b : String) : Decidable (a < b) :=
  decidable_of_iff (a.toList < b.toList) String.lt_iff_toList_lt.symm

/-- Key/value storage of one entry, `Metadata::DataType =
std::map<std::string, std::string>`, as a key-sorted association list. -/
abbrev DataType := List (String × String)

/-- Top-level storage, `Metadata::MetadataMap = std::map<std::string, Data>`,
with the `shared_ptr` dereferenced (see the file comment). -/
abbrev MetadataMap := List (String × DataType)

/-- Result of `std::map::contains`. -/
def mapContains {α : Type} (l : List (String × α)) (k : String) : Bool :=
  l.any (fun p => p.1 == k)

/-- Result of `std::map::at`, with `none` standing for a thrown
`std::out_of_range`. -/
def mapAt? {α : Type} (l : List (String × α)) (k : String) : Option α :=
  (l.find? (fun p => p.1 == k)).map (fun p => p.2)

/-- Behaviour of `std::map::insert`: add the pair only when the key is
absent, keeping the list sorted; the boolean is `insert`'s success flag. -/
def mapInsert {α : Type} (l : List (String × α)) (k : String) (v : α) :
    List (String × α) × Bool :=
  match l with
  | [] => ([(k, v)], true)
  | p :: rest =>
    if k < p.1 then ((k, v) :: p :: rest, true)
    else if k == p.1 then (p :: rest, false)
    else ((p :: (mapInsert rest k v).1, (mapInsert rest k v).2))

/-- Behaviour of assigning through `std::map::operator[]`: overwrite the
value when the key is present, insert it (sorted) when it is absent. -/
def mapAssign {α : Type} (l : List (String × α)) (k : String) (v : α) :
    List (String × α) :=
  match l with
  | [] => [(k, v)]
  | p :: rest =>
    if k < p.1 then (k, v) :: p :: rest
    else if k == p.1 then (k, v) :: rest
    else p :: mapAssign rest k v

/-- Behaviour of `std::map::erase(key)`. -/
def mapErase {α : Type} (l : List (String × α)) (k : String) :
    List (String × α) :=
  l.filter (fun p => p.1 != k)

/-- Strict key-sortedness, the iteration-order invariant of `std::map`. -/
abbrev SortedKeys {α : Type} (l : List (String × α)) : Prop :=
  l.Pairwise (fun p q => p.1 < q.1)

/-- The `fr::metadata::Metadata` object: its single data member. -/
structure Metadata where
  metadata : MetadataMap
  deriving DecidableEq

/-- The default-constructed `Metadata`: `std::map` starts empty. -/
def Metadata.empty : Metadata := ⟨[]⟩

/-- Embeds `Metadata::contains(id)` (the spec's `exists`). -/
def Metadata.contains (m : Metadata) (id : String) : Bool :=
  mapContains m.metadata id

/-- Embeds `Metadata::idContains(id, key)` (the spec's `entryHasKey`):
`contains(id, false) && metadata.at(id)->contains(key)`, the `&&`
short-circuit keeping the `at` call from ever throwing. -/
def Metadata.idContains (m : Metadata) (id key : String) : Bool :=
  m.contains id &&
    (match mapAt? m.metadata id with
     | some d => mapContains d key
     | none => false)

/-- Embeds `Metadata::add(id)` (the spec's `createEntry`): throws when the
id exists, otherwise inserts a fresh empty entry. -/
def Metadata.add (m : Metadata) (id : String) : Except String Metadata :=
  if m.contains id then
    .error ("'" ++ id ++ "' already exists in metadata")
  else
    .ok ⟨(mapInsert m.metadata id []).1⟩

/-- Embeds `Metadata::add(id, key, value)` (the spec's `setKeyStrict`).
Control flow of the source: throw when `idContains(id, key)`; otherwise
create the id when absent; then `metadata.at(id)->insert({key, value})`
inside a `try` block whose `catch` turns any exception — the
`std::out_of_range` of `at` as well as the `runtime_error` thrown on an
unsuccessful insert — into the message `Unique ID '<id>' does not exist`. -/
def Metadata.addKV (m : Metadata) (id key value : String) :
    Except String Metadata :=
  if m.idContains id key then
    .error ("'" ++ key ++ "' already exists in the unique id '" ++ id ++ "'")
  else
    match (if m.contains id then Except.ok m else m.add id) with
    | .error e => .error e
    | .ok m1 =>
      match mapAt? m1.metadata id with
      | none => .error ("Unique ID '" ++ id ++ "' does not exist")
      | some d =>
        match mapInsert d key value with
        | (d2, true) => .ok ⟨mapAssign m1.metadata id d2⟩
        | (_, false) => .error ("Unique ID '" ++ id ++ "' does not exist")

/-- Embeds `Metadata::ids()` (the spec's `listIdentifiers`): the first
components in iteration order. -/
def Metadata.ids (m : Metadata) : List String :=
  m.metadata.map (fun p => p.1)

/-- Embeds `Metadata::keys(id)` (the spec's `listKeys`): throws when the id
is absent, otherwise lists the entry's keys in iteration order. -/
def Metadata.keys (m : Metadata) (id : String) : Except String (List String) :=
  if !(m.contains id) then
    .error ("Unique ID '" ++ id ++ "' does not exist")
  else
    match mapAt? m.metadata id with
    | none => .error "std::out_of_range"
    | some d => .ok (d.map (fun p => p.1))

/-- Embeds `Metadata::value(id, key)` (the spec's `getValue`): throws when
`idContains` is false; the remaining `at` calls are then guarded, their
`catch` branch being the source's `deleted before I could access it`
message. -/
def Metadata.value (m : Metadata) (id key : String) : Except String String :=
  if !(m.idContains id key) then
    .error ("Key '" ++ key ++ "' or unique ID '" ++ id ++ "' do not exist")
  else
    match mapAt? m.metadata id with
    | none =>
      .error ("ID '" ++ id ++ "' or key '" ++ key ++
        "' was deleted before I could access it (This is probably highly unusual but technically possible.)")
    | some d =>
      match mapAt? d key with
      | none =>
        .error ("ID '" ++ id ++ "' or key '" ++ key ++
          "' was deleted before I could access it (This is probably highly unusual but technically possible.)")
      | some v => .ok v

/-- Embeds `Metadata::erase(id)` (the spec's `deleteEntry`):
`metadata.erase(id)`, never throwing. -/
def Metadata.erase (m : Metadata) (id : String) : Metadata :=
  ⟨mapErase m.metadata id⟩

/-- Embeds `Metadata::erase(id, key)` (the spec's `deleteKey`): erase the
key inside the id's entry when the id exists, otherwise do nothing; never
throws (the `at` call is guarded by `contains`). -/
def Metadata.eraseKey (m : Metadata) (id key : String) : Metadata :=
  if m.contains id then
    match mapAt? m.metadata id with
    | some d => ⟨mapAssign m.metadata id (mapErase d key)⟩
    | none => m
  else m

/-- Embeds `Metadata::update(id, key, value)` (the spec's `upsert`): create
the id when absent, then `(*metadata.at(id))[key] = value`. -/
def Metadata.update (m : Metadata) (id key value : String) :
    Except String Metadata :=
  match (if m.contains id then Except.ok m else m.add id) with
  | .error e => .error e
  | .ok m1 =>
    match mapAt? m1.metadata id with
    | none => .error "std::out_of_range"
    | some d => .ok ⟨mapAssign m1.metadata id (mapAssign d key value)⟩

/-- Modelled from the spec: `Metadata::toJson` delegates to the external
cereal `JSONOutputArchive`, whose code is not part of this repository.  Per
the spec the encoding is a self-describing document whose top-level shape is
the identifier -> (key -> value) structure, written in the store's iteration
order; we model that document at the structural level, as the sequence of
(identifier, entry) pairs the archiver traverses. -/
def Metadata.toJson (m : Metadata) : MetadataMap :=
  m.metadata

/-- Modelled from the spec: `Metadata::fromJson` populates a provided
(presumably empty) store through cereal's `JSONInputArchive`, whose code is
not part of this repository.  Cereal's `std::map` loader clears the target
map and re-inserts each pair of the document in document order, at both
levels of the nesting, so the previous content of the given store is fully
replaced and both maps are rebuilt by sorted insertion. -/
def Metadata.fromJson (_m : Metadata) (doc : MetadataMap) : Metadata :=
  ⟨doc.foldl
    (fun acc p =>
      (mapInsert acc p.1
        (p.2.foldl (fun e q => (mapInsert e q.1 q.2).1) [])).1)
    []⟩

/-- Well-formedness of a store state: both map levels are strictly
key-sorted, exactly the representation invariant of nested `std::map`s. -/
def Metadata.WF (m : Metadata) : Prop :=
  SortedKeys m.metadata ∧ ∀ p ∈ m.metadata, SortedKeys p.2

/-- States reachable through the public API from the default-constructed
store, including the output of `fromJson` on any document. -/
inductive Reachable : Metadata → Prop where
  | empty : Reachable Metadata.empty
  | add {m m' : Metadata} {id : String} :
      Reachable m → m.add id = .ok m' → Reachable m'
  | addKV {m m' : Metadata} {id k v : String} :
      Reachable m → m.addKV id k v = .ok m' → Reachable m'
  | update {m m' : Metadata} {id k v : String} :
      Reachable m → m.update id k v = .ok m' → Reachable m'
  | erase {m : Metadata} {id : String} :
      Reachable m → Reachable (m.erase id)
  | eraseKey {m : Metadata} {id k : String} :
      Reachable m → Reachable (m.eraseKey id k)
  | fromJson {m : Metadata} {doc : MetadataMap} :
      Reachable (Metadata.fromJson m doc)

/-! General lemmas about the embedded `std::map` operations.  None of them
assumes sortedness unless stated. -/

theorem mapAt?_cons {α : Type} (p : String × α) (l : List (String × α)) (k : String) :
    mapAt? (p :: l) k = if p.1 == k then some p.2 else mapAt? l k := by
  simp only [mapAt?, List.find?_cons]
  by_cases h : p.1 == k <;> simp [h]

theorem mapContains_cons {α : Type} (p : String × α) (l : List (String × α)) (k : String) :
    mapContains (p :: l) k = (p.1 == k || mapContains l k) := by
  simp [mapContains]

theorem mapContains_eq_isSome {α : Type} (l : List (String × α)) (k : String) :
    mapContains l k = (mapAt? l k).isSome := by
  induction l with
  | nil => rfl
  | cons p rest ih =>
    rw [mapContains_cons, mapAt?_cons]
    by_cases h : p.1 == k <;> simp [h, ih]

theorem mapContains_iff {α : Type} (l : List (String × α)) (k : String) :
    mapContains l k = true ↔ ∃ v, mapAt? l k = some v := by
  rw [mapContains_eq_isSome, Option.isSome_iff_exists]

theorem mapInsert_snd_of_not_contains {α : Type} (l : List (String × α))
    (k : String) (v : α) (h : mapContains l k = false) :
    (mapInsert l k v).2 = true := by
  induction l with
  | nil => rfl
  | cons p rest ih =>
    rw [mapContains_cons] at h
    simp only [Bool.or_eq_false_iff] at h
    simp only [mapInsert]
    by_cases hlt : k < p.1
    · simp [hlt]
    · simp [hlt, h.1, Ne.symm (ne_of_beq_false h.1), ih h.2]

theorem beq_symm_false {k k2 : String} (h : (k == k2) = false) :
    (k2 == k) = false := by
  simp only [beq_eq_false_iff_ne] at h ⊢
  exact Ne.symm h

theorem mapAt?_mapInsert_self {α : Type} (l : List (String × α))
    (k : String) (v : α) (h : (mapInsert l k v).2 = true) :
    mapAt? (mapInsert l k v).1 k = some v := by
  induction l with
  | nil => simp [mapInsert, mapAt?_cons]
  | cons p rest ih =>
    by_cases hlt : k < p.1
    · simp [mapInsert, hlt, mapAt?_cons]
    · by_cases heq : (k == p.1) = true
      · simp only [mapInsert, if_neg hlt, if_pos heq] at h
        exact absurd h (by simp)
      · have hne : (p.1 == k) = false := beq_symm_false (by simpa using heq)
        simp only [mapInsert, if_neg hlt, if_neg heq] at h ⊢
        rw [mapAt?_cons]
        simp only [hne, Bool.false_eq_true, if_false]
        exact ih h

theorem mapAt?_mapInsert_ne {α : Type} (l : List (String × α))
    (k k2 : String) (v : α) (h : k2 ≠ k) :
    mapAt? (mapInsert l k v).1 k2 = mapAt? l k2 := by
  induction l with
  | nil => simp [mapInsert, mapAt?_cons, mapAt?, Ne.symm h]
  | cons p rest ih =>
    simp only [mapInsert]
    by_cases hlt : k < p.1
    · simp [hlt, mapAt?_cons, Ne.symm h]
    · by_cases heq : k == p.1
      · simp [hlt, heq]
      · simp [hlt, heq, mapAt?_cons, ih]

theorem mapAt?_mapAssign_self {α : Type} (l : List (String × α))
    (k : String) (v : α) :
    mapAt? (mapAssign l k v) k = some v := by
  induction l with
  | nil => simp [mapAssign, mapAt?_cons]
  | cons p rest ih =>
    by_cases hlt : k < p.1
    · simp [mapAssign, hlt, mapAt?_cons]
    · by_cases heq : (k == p.1) = true
      · simp [mapAssign, hlt, heq, mapAt?_cons]
      · have hne : (p.1 == k) = false := beq_symm_false (by simpa using heq)
        simp only [mapAssign, if_neg hlt, if_neg heq]
        rw [mapAt?_cons]
        simp only [hne, Bool.false_eq_true, if_false]
        exact ih

theorem mapAt?_mapAssign_ne {α : Type} (l : List (String × α))
    (k k2 : String) (v : α) (h : k2 ≠ k) :
    mapAt? (mapAssign l k v) k2 = mapAt? l k2 := by
  induction l with
  | nil => simp [mapAssign, mapAt?_cons, mapAt?, Ne.symm h]
  | cons p rest ih =>
    simp only [mapAssign]
    by_cases hlt : k < p.1
    · simp [hlt, mapAt?_cons, Ne.symm h]
    · by_cases heq : k == p.1
      · have : p.1 = k := (beq_iff_eq.mp heq).symm
        rw [if_neg hlt, if_pos heq, mapAt?_cons, mapAt?_cons]
        simp [Ne.symm h, this]
      · simp [hlt, heq, mapAt?_cons, ih]

theorem mapAssign_mapAssign {α : Type} (l : List (String × α))
    (k : String) (a b : α) :
    mapAssign (mapAssign l k a) k b = mapAssign l k b := by
  induction l with
  | nil => simp [mapAssign]
  | cons p rest ih =>
    simp only [mapAssign]
    by_cases hlt : k < p.1
    · simp [mapAssign, hlt, lt_irrefl]
    · by_cases heq : k == p.1
      · simp [mapAssign, hlt, heq, lt_irrefl]
      · simp [mapAssign, hlt, heq, ih]

theorem mapAt?_mapErase_self {α : Type} (l : List (String × α)) (k : String) :
    mapAt? (mapErase l k) k = none := by
  induction l with
  | nil => rfl
  | cons p rest ih =>
    simp only [mapErase, List.filter_cons] at ih ⊢
    by_cases h : (p.1 == k) = true
    · simp only [bne, h, Bool.not_true, Bool.false_eq_true, if_false]
      exact ih
    · have hf : (p.1 == k) = false := by simpa using h
      simp only [bne, hf, Bool.not_false, if_true]
      rw [mapAt?_cons]
      simp only [hf, Bool.false_eq_true, if_false]
      exact ih

theorem mapAt?_mapErase_ne {α : Type} (l : List (String × α))
    (k k2 : String) (h : k2 ≠ k) :
    mapAt? (mapErase l k) k2 = mapAt? l k2 := by
  induction l with
  | nil => rfl
  | cons p rest ih =>
    simp only [mapErase, List.filter_cons] at ih ⊢
    rw [mapAt?_cons]
    by_cases hpk : (p.1 == k) = true
    · have hp1 : p.1 = k := beq_iff_eq.mp hpk
      have hne2 : (p.1 == k2) = false := by
        simp only [beq_eq_false_iff_ne, hp1]
        exact Ne.symm h
      simp only [bne, hpk, Bool.not_true, Bool.false_eq_true, if_false,
        hne2]
      exact ih
    · have hf : (p.1 == k) = false := by simpa using hpk
      simp only [bne, hf, Bool.not_false, if_true]
      rw [mapAt?_cons]
      by_cases hk2 : (p.1 == k2) = true
      · simp only [hk2, if_true]
      · have hf2 : (p.1 == k2) = false := by simpa using hk2
        simp only [hf2, Bool.false_eq_true, if_false]
        exact ih

theorem mapErase_mapErase {α : Type} (l : List (String × α)) (k : String) :
    mapErase (mapErase l k) k = mapErase l k := by
  simp only [mapErase]
  apply List.filter_eq_self.mpr
  intro p hp
  exact (List.mem_filter.mp hp).2

theorem mem_mapInsert {α : Type} {l : List (String × α)} {k : String} {v : α}
    {p : String × α} (h : p ∈ (mapInsert l k v).1) : p = (k, v) ∨ p ∈ l := by
  induction l with
  | nil =>
    simp only [mapInsert, List.mem_singleton] at h
    exact Or.inl h
  | cons q rest ih =>
    by_cases hlt : k < q.1
    · simp only [mapInsert, if_pos hlt, List.mem_cons] at h
      rcases h with h | h | h
      · exact Or.inl h
      · exact Or.inr (by simp [h])
      · exact Or.inr (List.mem_cons_of_mem _ h)
    · by_cases heq : (k == q.1) = true
      · simp only [mapInsert, if_neg hlt, if_pos heq] at h
        exact Or.inr h
      · simp only [mapInsert, if_neg hlt, if_neg heq, List.mem_cons] at h
        rcases h with h | h
        · exact Or.inr (by simp [h])
        · rcases ih h with h | h
          · exact Or.inl h
          · exact Or.inr (List.mem_cons_of_mem _ h)

theorem mem_mapAssign {α : Type} {l : List (String × α)} {k : String} {v : α}
    {p : String × α} (h : p ∈ mapAssign l k v) : p = (k, v) ∨ p ∈ l := by
  induction l with
  | nil =>
    simp only [mapAssign, List.mem_singleton] at h
    exact Or.inl h
  | cons q rest ih =>
    by_cases hlt : k < q.1
    · simp only [mapAssign, if_pos hlt, List.mem_cons] at h
      rcases h with h | h | h
      · exact Or.inl h
      · exact Or.inr (by simp [h])
      · exact Or.inr (List.mem_cons_of_mem _ h)
    · by_cases heq : (k == q.1) = true
      · simp only [mapAssign, if_neg hlt, if_pos heq, List.mem_cons] at h
        rcases h with h | h
        · exact Or.inl h
        · exact Or.inr (List.mem_cons_of_mem _ h)
      · simp only [mapAssign, if_neg hlt, if_neg heq, List.mem_cons] at h
        rcases h with h | h
        · exact Or.inr (by simp [h])
        · rcases ih h with h | h
          · exact Or.inl h
          · exact Or.inr (List.mem_cons_of_mem _ h)

theorem sortedKeys_mapInsert {α : Type} (l : List (String × α)) (k : String)
    (v : α) (h : SortedKeys l) : SortedKeys (mapInsert l k v).1 := by
  induction l with
  | nil => simp [mapInsert]
  | cons p rest ih =>
    obtain ⟨hp, hrest⟩ := List.pairwise_cons.mp h
    by_cases hlt : k < p.1
    · simp only [mapInsert, if_pos hlt]
      refine List.pairwise_cons.mpr ⟨?_, List.pairwise_cons.mpr ⟨hp, hrest⟩⟩
      intro q hq
      simp only [List.mem_cons] at hq
      rcases hq with rfl | hq
      · exact hlt
      · exact lt_trans hlt (hp q hq)
    · by_cases heq : (k == p.1) = true
      · simp only [mapInsert, if_neg hlt, if_pos heq]
        exact List.pairwise_cons.mpr ⟨hp, hrest⟩
      · have hne : k ≠ p.1 := by simpa using heq
        have hgt : p.1 < k := lt_of_le_of_ne (not_lt.mp hlt) (Ne.symm hne)
        simp only [mapInsert, if_neg hlt, if_neg heq]
        refine List.pairwise_cons.mpr ⟨?_, ih hrest⟩
        intro q hq
        rcases mem_mapInsert hq with rfl | hq
        · exact hgt
        · exact hp q hq

theorem sortedKeys_mapAssign {α : Type} (l : List (String × α)) (k : String)
    (v : α) (h : SortedKeys l) : SortedKeys (mapAssign l k v) := by
  induction l with
  | nil => simp [mapAssign]
  | cons p rest ih =>
    obtain ⟨hp, hrest⟩ := List.pairwise_cons.mp h
    by_cases hlt : k < p.1
    · simp only [mapAssign, if_pos hlt]
      refine List.pairwise_cons.mpr ⟨?_, List.pairwise_cons.mpr ⟨hp, hrest⟩⟩
      intro q hq
      simp only [List.mem_cons] at hq
      rcases hq with rfl | hq
      · exact hlt
      · exact lt_trans hlt (hp q hq)
    · by_cases heq : (k == p.1) = true
      · have hkp : k = p.1 := beq_iff_eq.mp heq
        simp only [mapAssign, if_neg hlt, if_pos heq]
        refine List.pairwise_cons.mpr ⟨?_, hrest⟩
        intro q hq
        exact hkp ▸ hp q hq
      · have hne : k ≠ p.1 := by simpa using heq
        have hgt : p.1 < k := lt_of_le_of_ne (not_lt.mp hlt) (Ne.symm hne)
        simp only [mapAssign, if_neg hlt, if_neg heq]
        refine List.pairwise_cons.mpr ⟨?_, ih hrest⟩
        intro q hq
        rcases mem_mapAssign hq with rfl | hq
        · exact hgt
        · exact hp q hq

theorem sortedKeys_mapErase {α : Type} (l : List (String × α)) (k : String)
    (h : SortedKeys l) : SortedKeys (mapErase l k) :=
  h.filter _

theorem mapInsert_append {α : Type} (l : List (String × α)) (k : String)
    (v : α) (h : ∀ q ∈ l, q.1 < k) : mapInsert l k v = (l ++ [(k, v)], true) := by
  induction l with
  | nil => rfl
  | cons p rest ih =>
    have hp : p.1 < k := h p (by simp)
    have hlt : ¬ k < p.1 := not_lt.mpr (le_of_lt hp)
    have heq : (k == p.1) = false := beq_eq_false_iff_ne.mpr (ne_of_gt hp)
    simp only [mapInsert, if_neg hlt, heq, Bool.false_eq_true, if_false]
    rw [ih (fun q hq => h q (List.mem_cons_of_mem _ hq))]
    simp

theorem foldl_mapInsert_sorted {α : Type} (l acc : List (String × α))
    (h : SortedKeys (acc ++ l)) :
    l.foldl (fun a q => (mapInsert a q.1 q.2).1) acc = acc ++ l := by
  induction l generalizing acc with
  | nil => simp
  | cons p rest ih =>
    have hlt : ∀ q ∈ acc, q.1 < p.1 := by
      intro q hq
      exact (List.pairwise_append.mp h).2.2 q hq p (by simp)
    rw [List.foldl_cons]
    have hins : (mapInsert acc p.1 p.2).1 = acc ++ [p] := by
      rw [mapInsert_append acc p.1 p.2 hlt]
    rw [hins]
    have hsort : SortedKeys ((acc ++ [p]) ++ rest) := by
      rw [List.append_assoc, List.singleton_append]
      exact h
    rw [ih _ hsort, List.append_assoc, List.singleton_append]

theorem mem_foldl_mapInsert {α : Type} (l acc : List (String × α))
    (p : String × α)
    (h : p ∈ l.foldl (fun a q => (mapInsert a q.1 q.2).1) acc) :
    p ∈ acc ∨ p ∈ l := by
  induction l generalizing acc with
  | nil => exact Or.inl (by simpa using h)
  | cons q rest ih =>
    rw [List.foldl_cons] at h
    rcases ih _ h with h | h
    · rcases mem_mapInsert h with h | h
      · exact Or.inr (by simp [h])
      · exact Or.inl h
    · exact Or.inr (List.mem_cons_of_mem _ h)

theorem sortedKeys_foldl_mapInsert {α : Type} (l acc : List (String × α))
    (h : SortedKeys acc) :
    SortedKeys (l.foldl (fun a q => (mapInsert a q.1 q.2).1) acc) := by
  induction l generalizing acc with
  | nil => simpa using h
  | cons q rest ih =>
    rw [List.foldl_cons]
    exact ih _ (sortedKeys_mapInsert _ _ _ h)

/-! Lemmas connecting the `Metadata` operations to the map primitives. -/

theorem contains_eq_isSome (m : Metadata) (id : String) :
    m.contains id = (mapAt? m.metadata id).isSome :=
  mapContains_eq_isSome _ _

theorem contains_false_of_at_none {m : Metadata} {id : String}
    (h : mapAt? m.metadata id = none) : m.contains id = false := by
  rw [contains_eq_isSome, h]
  rfl

theorem contains_true_of_at_some {m : Metadata} {id : String} {d : DataType}
    (h : mapAt? m.metadata id = some d) : m.contains id = true := by
  rw [contains_eq_isSome, h]
  rfl

theorem add_error_of_contains {m : Metadata} {id : String}
    (h : m.contains id = true) :
    m.add id = .error ("'" ++ id ++ "' already exists in metadata") := by
  unfold Metadata.add
  rw [if_pos h]

theorem add_ok_of_not_contains {m : Metadata} {id : String}
    (h : m.contains id = false) :
    m.add id = .ok ⟨(mapInsert m.metadata id []).1⟩ := by
  unfold Metadata.add
  rw [if_neg (by simp [h])]

theorem add_ok_shape {m m' : Metadata} {id : String}
    (h : m.add id = .ok m') :
    m.contains id = false ∧ m'.metadata = (mapInsert m.metadata id []).1 := by
  unfold Metadata.add at h
  by_cases hc : m.contains id = true
  · rw [if_pos hc] at h
    exact absurd h (by simp)
  · rw [if_neg hc] at h
    injection h with h
    refine ⟨by simpa using hc, ?_⟩
    rw [← h]

theorem idContains_eq (m : Metadata) (id k : String) :
    m.idContains id k = true ↔
      ∃ d, mapAt? m.metadata id = some d ∧ mapContains d k = true := by
  unfold Metadata.idContains
  rw [contains_eq_isSome]
  cases hat : mapAt? m.metadata id with
  | none => simp
  | some d => simp

theorem idContains_false_of_not_contains {m : Metadata} {id k : String}
    (h : m.contains id = false) : m.idContains id k = false := by
  unfold Metadata.idContains
  rw [h]
  rfl

theorem idContains_of_at_some {m : Metadata} {id k : String} {d : DataType}
    (hd : mapAt? m.metadata id = some d) (hk : (mapAt? d k).isSome = true) :
    m.idContains id k = true :=
  (idContains_eq m id k).mpr ⟨d, hd, by rw [mapContains_eq_isSome]; exact hk⟩

theorem keys_of_at_none {m : Metadata} {id : String}
    (h : mapAt? m.metadata id = none) :
    m.keys id = .error ("Unique ID '" ++ id ++ "' does not exist") := by
  unfold Metadata.keys
  rw [if_pos (by simp [contains_false_of_at_none h])]

theorem keys_of_at_some {m : Metadata} {id : String} {d : DataType}
    (h : mapAt? m.metadata id = some d) :
    m.keys id = .ok (d.map (fun p => p.1)) := by
  unfold Metadata.keys
  rw [if_neg (by simp [contains_true_of_at_some h]), h]

theorem value_error_of_not_idContains {m : Metadata} {id k : String}
    (h : m.idContains id k = false) :
    m.value id k =
      .error ("Key '" ++ k ++ "' or unique ID '" ++ id ++ "' do not exist") := by
  unfold Metadata.value
  rw [if_pos (by simp [h])]

theorem value_of_at_some {m : Metadata} {id k v : String} {d : DataType}
    (hd : mapAt? m.metadata id = some d) (hv : mapAt? d k = some v) :
    m.value id k = .ok v := by
  unfold Metadata.value
  rw [if_neg (by simp [idContains_of_at_some hd (by rw [hv]; rfl)]), hd]
  simp only [hv]

theorem mem_of_mapAt? {α : Type} {l : List (String × α)} {k : String} {v : α}
    (h : mapAt? l k = some v) : (k, v) ∈ l := by
  unfold mapAt? at h
  cases hf : l.find? (fun p => p.1 == k) with
  | none => rw [hf] at h; cases h
  | some p =>
    rw [hf] at h
    have hm := List.mem_of_find?_eq_some hf
    have hk : p.1 = k := by simpa using List.find?_some hf
    injection h with h
    have hp : p = (k, v) := by
      cases p
      simp only at hk h
      rw [hk, h]
    rw [← hp]
    exact hm

theorem addKV_error_of_idContains {m : Metadata} {id k v : String}
    (h : m.idContains id k = true) :
    m.addKV id k v =
      .error ("'" ++ k ++ "' already exists in the unique id '" ++ id ++ "'") := by
  unfold Metadata.addKV
  rw [if_pos h]

theorem addKV_ok_shape {m m' : Metadata} {id k v : String}
    (h : m.addKV id k v = .ok m') :
    ∃ M1 d, (M1 = m.metadata ∨ M1 = (mapInsert m.metadata id []).1) ∧
      mapAt? M1 id = some d ∧ (mapInsert d k v).2 = true ∧
      m'.metadata = mapAssign M1 id (mapInsert d k v).1 := by
  unfold Metadata.addKV at h
  split at h
  · exact absurd h (by simp)
  · split at h
    · exact absurd h (by simp)
    · rename_i m1 heq
      split at h
      · exact absurd h (by simp)
      · rename_i d hat
        split at h
        · rename_i d2 hmi
          injection h with h
          have hM1 : m1.metadata = m.metadata ∨
              m1.metadata = (mapInsert m.metadata id []).1 := by
            by_cases hc : m.contains id = true
            · rw [if_pos hc] at heq
              injection heq with heq
              exact Or.inl (by rw [← heq])
            · rw [if_neg hc] at heq
              exact Or.inr (add_ok_shape heq).2
          refine ⟨m1.metadata, d, hM1, hat, by rw [hmi], ?_⟩
          rw [← h, hmi]
        · exact absurd h (by simp)

theorem update_ok_shape {m m' : Metadata} {id k v : String}
    (h : m.update id k v = .ok m') :
    ∃ M1 d, (M1 = m.metadata ∨ M1 = (mapInsert m.metadata id []).1) ∧
      mapAt? M1 id = some d ∧
      m'.metadata = mapAssign M1 id (mapAssign d k v) := by
  unfold Metadata.update at h
  split at h
  · exact absurd h (by simp)
  · rename_i m1 heq
    split at h
    · exact absurd h (by simp)
    · rename_i d hat
      injection h with h
      have hM1 : m1.metadata = m.metadata ∨
          m1.metadata = (mapInsert m.metadata id []).1 := by
        by_cases hc : m.contains id = true
        · rw [if_pos hc] at heq
          injection heq with heq
          exact Or.inl (by rw [← heq])
        · rw [if_neg hc] at heq
          exact Or.inr (add_ok_shape heq).2
      exact ⟨m1.metadata, d, hM1, hat, by rw [← h]⟩

theorem addKV_ok_of_absent {m : Metadata} {id k v : String}
    (h : m.contains id = false) :
    m.addKV id k v =
      .ok ⟨mapAssign (mapInsert m.metadata id []).1 id [(k, v)]⟩ := by
  have hins : mapAt? (mapInsert m.metadata id []).1 id = some [] :=
    mapAt?_mapInsert_self _ _ _ (mapInsert_snd_of_not_contains _ _ _ h)
  unfold Metadata.addKV
  rw [if_neg (by simp [idContains_false_of_not_contains h]),
    if_neg (by simp [h]), add_ok_of_not_contains h]
  simp only [hins, mapInsert]

theorem update_ok_value (m : Metadata) (id k v : String) :
    ∃ m', m.update id k v = .ok m' ∧ m'.value id k = .ok v := by
  by_cases hc : m.contains id = true
  · obtain ⟨d, hd⟩ := Option.isSome_iff_exists.mp
      (by rw [← contains_eq_isSome]; exact hc)
    refine ⟨⟨mapAssign m.metadata id (mapAssign d k v)⟩, ?_, ?_⟩
    · unfold Metadata.update
      rw [if_pos hc]
      simp only [hd]
    · exact value_of_at_some (mapAt?_mapAssign_self _ _ _)
        (mapAt?_mapAssign_self _ _ _)
  · have hcf : m.contains id = false := by simpa using hc
    have hins : mapAt? (mapInsert m.metadata id []).1 id = some [] :=
      mapAt?_mapInsert_self _ _ _ (mapInsert_snd_of_not_contains _ _ _ hcf)
    refine ⟨⟨mapAssign (mapInsert m.metadata id []).1 id (mapAssign [] k v)⟩,
      ?_, ?_⟩
    · unfold Metadata.update
      rw [if_neg hc, add_ok_of_not_contains hcf]
      simp only [hins]
    · exact value_of_at_some (mapAt?_mapAssign_self _ _ _)
        (mapAt?_mapAssign_self _ _ _)

/-! Well-formedness: the empty store is well-formed and every operation
preserves well-formedness. -/

theorem Metadata.eq_of_eq_metadata {a b : Metadata}
    (h : a.metadata = b.metadata) : a = b := by
  cases a
  cases b
  cases h
  rfl

theorem wf_empty : Metadata.empty.WF :=
  ⟨List.Pairwise.nil, by simp [Metadata.empty]⟩

theorem wf_add {m m' : Metadata} {id : String} (h : m.WF)
    (hok : m.add id = .ok m') : m'.WF := by
  obtain ⟨hc, hm⟩ := add_ok_shape hok
  constructor
  · rw [hm]
    exact sortedKeys_mapInsert _ _ _ h.1
  · intro p hp
    rw [hm] at hp
    rcases mem_mapInsert hp with rfl | hp
    · exact List.Pairwise.nil
    · exact h.2 p hp

theorem wf_addKV {m m' : Metadata} {id k v : String} (h : m.WF)
    (hok : m.addKV id k v = .ok m') : m'.WF := by
  obtain ⟨M1, d, hM1, hat, hsnd, hm⟩ := addKV_ok_shape hok
  have hM1wf : SortedKeys M1 ∧ ∀ p ∈ M1, SortedKeys p.2 := by
    rcases hM1 with rfl | rfl
    · exact ⟨h.1, h.2⟩
    · refine ⟨sortedKeys_mapInsert _ _ _ h.1, ?_⟩
      intro p hp
      rcases mem_mapInsert hp with rfl | hp
      · exact List.Pairwise.nil
      · exact h.2 p hp
  have hd : SortedKeys d := hM1wf.2 (id, d) (mem_of_mapAt? hat)
  constructor
  · rw [hm]
    exact sortedKeys_mapAssign _ _ _ hM1wf.1
  · intro p hp
    rw [hm] at hp
    rcases mem_mapAssign hp with rfl | hp
    · exact sortedKeys_mapInsert _ _ _ hd
    · exact hM1wf.2 p hp

theorem wf_update {m m' : Metadata} {id k v : String} (h : m.WF)
    (hok : m.update id k v = .ok m') : m'.WF := by
  obtain ⟨M1, d, hM1, hat, hm⟩ := update_ok_shape hok
  have hM1wf : SortedKeys M1 ∧ ∀ p ∈ M1, SortedKeys p.2 := by
    rcases hM1 with rfl | rfl
    · exact ⟨h.1, h.2⟩
    · refine ⟨sortedKeys_mapInsert _ _ _ h.1, ?_⟩
      intro p hp
      rcases mem_mapInsert hp with rfl | hp
      · exact List.Pairwise.nil
      · exact h.2 p hp
  have hd : SortedKeys d := hM1wf.2 (id, d) (mem_of_mapAt? hat)
  constructor
  · rw [hm]
    exact sortedKeys_mapAssign _ _ _ hM1wf.1
  · intro p hp
    rw [hm] at hp
    rcases mem_mapAssign hp with rfl | hp
    · exact sortedKeys_mapAssign _ _ _ hd
    · exact hM1wf.2 p hp

theorem wf_erase {m : Metadata} {id : String} (h : m.WF) : (m.erase id).WF := by
  constructor
  · exact sortedKeys_mapErase _ _ h.1
  · intro p hp
    exact h.2 p (List.mem_of_mem_filter hp)

theorem wf_eraseKey {m : Metadata} {id k : String} (h : m.WF) :
    (m.eraseKey id k).WF := by
  unfold Metadata.eraseKey
  by_cases hc : m.contains id = true
  · rw [if_pos hc]
    cases hat : mapAt? m.metadata id with
    | none => exact h
    | some d =>
      constructor
      · exact sortedKeys_mapAssign _ _ _ h.1
      · intro p hp
        rcases mem_mapAssign hp with rfl | hp
        · exact sortedKeys_mapErase _ _ (h.2 (id, d) (mem_of_mapAt? hat))
        · exact h.2 p hp
  · rw [if_neg hc]
    exact h

theorem fromJson_eq_foldl (m : Metadata) (doc : MetadataMap) :
    (Metadata.fromJson m doc).metadata =
      (doc.map
        (fun p => (p.1, p.2.foldl (fun e q => (mapInsert e q.1 q.2).1) []))).foldl
        (fun a q => (mapInsert a q.1 q.2).1) [] := by
  unfold Metadata.fromJson
  rw [List.foldl_map]

theorem wf_fromJson (m : Metadata) (doc : MetadataMap) :
    (Metadata.fromJson m doc).WF := by
  constructor
  · rw [fromJson_eq_foldl]
    exact sortedKeys_foldl_mapInsert _ _ List.Pairwise.nil
  · intro p hp
    rw [fromJson_eq_foldl] at hp
    rcases mem_foldl_mapInsert _ _ _ hp with hmem | hmem
    · cases hmem
    · obtain ⟨q, _, rfl⟩ := List.mem_map.mp hmem
      exact sortedKeys_foldl_mapInsert _ _ List.Pairwise.nil

theorem fromJson_toJson {m : Metadata} (h : m.WF) :
    Metadata.fromJson Metadata.empty (Metadata.toJson m) = m := by
  apply Metadata.eq_of_eq_metadata
  rw [fromJson_eq_foldl]
  have hmap : m.toJson.map
      (fun p => (p.1, p.2.foldl (fun e q => (mapInsert e q.1 q.2).1) [])) =
      m.metadata := by
    unfold Metadata.toJson
    have hcongr : ∀ p ∈ m.metadata,
        (p.1, p.2.foldl (fun e q => (mapInsert e q.1 q.2).1) []) = p := by
      intro p hp
      have hsorted : SortedKeys p.2 := h.2 p hp
      have hfold : p.2.foldl (fun e q => (mapInsert e q.1 q.2).1) [] = p.2 := by
        have := foldl_mapInsert_sorted p.2 [] (by simpa using hsorted)
        simpa using this
      rw [hfold]
    calc m.metadata.map
          (fun p => (p.1, p.2.foldl (fun e q => (mapInsert e q.1 q.2).1) []))
        = m.metadata.map id := List.map_congr_left hcongr
      _ = m.metadata := List.map_id _
  rw [hmap]
  have := foldl_mapInsert_sorted m.metadata [] (by simpa using h.1)
  simpa using this

theorem eraseKey_of_not_contains {m : Metadata} {id k : String}
    (h : m.contains id = false) : m.eraseKey id k = m := by
  unfold Metadata.eraseKey
  rw [if_neg (by simp [h])]

theorem eraseKey_of_at_some {m : Metadata} {id k : String} {d : DataType}
    (h : mapAt? m.metadata id = some d) :
    m.eraseKey id k = ⟨mapAssign m.metadata id (mapErase d k)⟩ := by
  unfold Metadata.eraseKey
  rw [if_pos (contains_true_of_at_some h)]
  simp only [h]

theorem keys_ok_shape {m : Metadata} {id : String} {ks : List String}
    (h : m.keys id = .ok ks) :
    ∃ d, mapAt? m.metadata id = some d ∧ ks = d.map (fun p => p.1) := by
  cases hat : mapAt? m.metadata id with
  | none =>
    rw [keys_of_at_none hat] at h
    exact absurd h (by simp)
  | some d =>
    rw [keys_of_at_some hat] at h
    injection h with h
    exact ⟨d, rfl, h.symm⟩

instance (m : Metadata) : Decidable m.WF :=
  inferInstanceAs
    (Decidable (SortedKeys m.metadata ∧ ∀ p ∈ m.metadata, SortedKeys p.2))

/-! The claims. -/

/-- Claim C1: decoding the encoding of any well-formed store `S` into a
fresh empty store reconstructs `S` exactly: in particular the identifier
sequence is the same and every identifier looks up to the same entry, so
the identifier set and each entry's key/value pairs agree, independently of
the ordering inside the document. -/
theorem metadata_json_roundtrip (m : Metadata) (h : m.WF) :
    Metadata.fromJson Metadata.empty (Metadata.toJson m) = m ∧
    (Metadata.fromJson Metadata.empty (Metadata.toJson m)).ids = m.ids ∧
    ∀ id, mapAt? (Metadata.fromJson Metadata.empty (Metadata.toJson m)).metadata id
      = mapAt? m.metadata id := by
  have he := fromJson_toJson h
  exact ⟨he, by rw [he], fun id => by rw [he]⟩

/-- Witness for C1: round trip of a concrete two-key store. -/
theorem metadata_json_roundtrip_witness :
    Metadata.fromJson Metadata.empty
      (Metadata.toJson ⟨[("Foo", [("Bait", "Quux"), ("Bar", "Baz")])]⟩) =
      ⟨[("Foo", [("Bait", "Quux"), ("Bar", "Baz")])]⟩ :=
  (metadata_json_roundtrip ⟨[("Foo", [("Bait", "Quux"), ("Bar", "Baz")])]⟩
    (by decide)).1

/-- Claim C2: after a successful strict insert `setKeyStrict(id, k, v)`
(the three-argument `add`), a second strict insert of the same key fails
with the AlreadyExists error, and the store still yields `v` for `(id, k)`
— the failing call throws before mutating anything, so it produces no new
store and the first write stays intact. -/
theorem setKeyStrict_second_fails (m m' : Metadata) (id k v v2 : String)
    (h : m.addKV id k v = .ok m') :
    m'.addKV id k v2 =
      .error ("'" ++ k ++ "' already exists in the unique id '" ++ id ++ "'") ∧
    m'.value id k = .ok v := by
  obtain ⟨M1, d, hM1, hat, hsnd, hm⟩ := addKV_ok_shape h
  have hv : mapAt? (mapInsert d k v).1 k = some v :=
    mapAt?_mapInsert_self _ _ _ hsnd
  have hat' : mapAt? m'.metadata id = some (mapInsert d k v).1 := by
    rw [hm]
    exact mapAt?_mapAssign_self _ _ _
  constructor
  · exact addKV_error_of_idContains (idContains_of_at_some hat' (by rw [hv]; rfl))
  · exact value_of_at_some hat' hv

/-- Witness for C2: a concrete strict insert followed by a failing one. -/
theorem setKeyStrict_second_fails_witness :
    (⟨[("Foo", [("Bar", "Baz")])]⟩ : Metadata).addKV "Foo" "Bar" "Quux" =
      .error ("'" ++ "Bar" ++ "' already exists in the unique id '" ++ "Foo" ++ "'") ∧
    (⟨[("Foo", [("Bar", "Baz")])]⟩ : Metadata).value "Foo" "Bar" = .ok "Baz" :=
  setKeyStrict_second_fails Metadata.empty ⟨[("Foo", [("Bar", "Baz")])]⟩
    "Foo" "Bar" "Baz" "Quux" rfl

/-- Claim C3: `createEntry(id)` (the one-argument `add`) fails with the
AlreadyExists error whenever the id is already present, producing no new
store (the throw happens before any mutation); and after a successful
`createEntry(id)` the id is present with an empty entry and a second
`createEntry(id)` fails that way, the first call's effect intact. -/
theorem createEntry_second_fails (m m' : Metadata) (id : String) :
    (m.contains id = true →
      m.add id = .error ("'" ++ id ++ "' already exists in metadata")) ∧
    (m.add id = .ok m' →
      m'.contains id = true ∧ m'.keys id = .ok [] ∧
      m'.add id = .error ("'" ++ id ++ "' already exists in metadata")) := by
  constructor
  · exact add_error_of_contains
  · intro hok
    obtain ⟨hc, hm⟩ := add_ok_shape hok
    have hins : mapAt? m'.metadata id = some [] := by
      rw [hm]
      exact mapAt?_mapInsert_self _ _ _ (mapInsert_snd_of_not_contains _ _ _ hc)
    exact ⟨contains_true_of_at_some hins, keys_of_at_some hins,
      add_error_of_contains (contains_true_of_at_some hins)⟩

/-- Witness for C3: both conjuncts at concrete stores. -/
theorem createEntry_second_fails_witness :
    ((⟨[("Foo", [])]⟩ : Metadata).add "Foo" =
      .error ("'" ++ "Foo" ++ "' already exists in metadata")) ∧
    ((⟨[("Foo", [])]⟩ : Metadata).contains "Foo" = true ∧
      (⟨[("Foo", [])]⟩ : Metadata).keys "Foo" = .ok [] ∧
      (⟨[("Foo", [])]⟩ : Metadata).add "Foo" =
        .error ("'" ++ "Foo" ++ "' already exists in metadata")) :=
  ⟨(createEntry_second_fails ⟨[("Foo", [])]⟩ ⟨[("Foo", [])]⟩ "Foo").1 rfl,
   (createEntry_second_fails Metadata.empty ⟨[("Foo", [])]⟩ "Foo").2 rfl⟩

/-- Claim C4: `upsert` (update) never fails, whatever the pre-existing
identifier and key state: two successive upserts of the same key both
return successfully and the value read afterwards is the second one. -/
theorem upsert_twice_overwrites (m : Metadata) (id k v1 v2 : String) :
    ∃ m1 m2, m.update id k v1 = .ok m1 ∧ m1.update id k v2 = .ok m2 ∧
      m2.value id k = .ok v2 := by
  obtain ⟨m1, h1, _⟩ := update_ok_value m id k v1
  obtain ⟨m2, h2, hv⟩ := update_ok_value m1 id k v2
  exact ⟨m1, m2, h1, h2, hv⟩

/-- Claim C5: lookups fail with the NotFound errors exactly on absent
data: for an absent identifier, `exists` is false and `listKeys`/`getValue`
fail with the NotFound messages; `getValue` also fails when the identifier
exists but its entry lacks the key; and `listKeys`/`getValue` succeed
exactly when the requested identifier (and key) are present. -/
theorem lookup_notFound_spec (m : Metadata) (id k : String) :
    (mapAt? m.metadata id = none →
      m.contains id = false ∧
      m.keys id = .error ("Unique ID '" ++ id ++ "' does not exist") ∧
      ∀ k2, m.value id k2 =
        .error ("Key '" ++ k2 ++ "' or unique ID '" ++ id ++ "' do not exist")) ∧
    (∀ d, mapAt? m.metadata id = some d → mapAt? d k = none →
      m.value id k =
        .error ("Key '" ++ k ++ "' or unique ID '" ++ id ++ "' do not exist")) ∧
    ((∃ ks, m.keys id = .ok ks) ↔ (mapAt? m.metadata id).isSome = true) ∧
    ((∃ v, m.value id k = .ok v) ↔
      ∃ d, mapAt? m.metadata id = some d ∧ (mapAt? d k).isSome = true) := by
  have hvalue_none : ∀ d, mapAt? m.metadata id = some d → mapAt? d k = none →
      m.value id k =
        .error ("Key '" ++ k ++ "' or unique ID '" ++ id ++ "' do not exist") := by
    intro d hd hkn
    have hic : m.idContains id k = false := by
      rw [Bool.eq_false_iff]
      intro hic
      obtain ⟨d', hd', hcont⟩ := (idContains_eq m id k).mp hic
      rw [hd] at hd'
      injection hd' with hd'
      subst hd'
      rw [mapContains_eq_isSome, hkn] at hcont
      exact absurd hcont (by simp)
    exact value_error_of_not_idContains hic
  refine ⟨?_, hvalue_none, ?_, ?_⟩
  · intro hn
    refine ⟨contains_false_of_at_none hn, keys_of_at_none hn, ?_⟩
    intro k2
    exact value_error_of_not_idContains
      (idContains_false_of_not_contains (contains_false_of_at_none hn))
  · constructor
    · rintro ⟨ks, hks⟩
      obtain ⟨d, hd, _⟩ := keys_ok_shape hks
      rw [hd]
      rfl
    · intro hs
      obtain ⟨d, hd⟩ := Option.isSome_iff_exists.mp hs
      exact ⟨d.map (fun p => p.1), keys_of_at_some hd⟩
  · constructor
    · rintro ⟨v, hv⟩
      cases hat : mapAt? m.metadata id with
      | none =>
        rw [value_error_of_not_idContains
          (idContains_false_of_not_contains (contains_false_of_at_none hat))] at hv
        exact absurd hv (by simp)
      | some d =>
        cases hdk : mapAt? d k with
        | none =>
          rw [hvalue_none d hat hdk] at hv
          exact absurd hv (by simp)
        | some w => exact ⟨d, rfl, by rw [hdk]; rfl⟩
    · rintro ⟨d, hd, hs⟩
      obtain ⟨w, hw⟩ := Option.isSome_iff_exists.mp hs
      exact ⟨w, value_of_at_some hd hw⟩

/-- Witness for C5: concrete absent-identifier and absent-key lookups. -/
theorem lookup_notFound_spec_witness :
    (⟨[("Foo", [("Bar", "Baz")])]⟩ : Metadata).contains "Nope" = false ∧
    (⟨[("Foo", [("Bar", "Baz")])]⟩ : Metadata).keys "Nope" =
      .error ("Unique ID '" ++ "Nope" ++ "' does not exist") ∧
    (⟨[("Foo", [("Bar", "Baz")])]⟩ : Metadata).value "Nope" "Bar" =
      .error ("Key '" ++ "Bar" ++ "' or unique ID '" ++ "Nope" ++ "' do not exist") ∧
    (⟨[("Foo", [("Bar", "Baz")])]⟩ : Metadata).value "Foo" "Nope" =
      .error ("Key '" ++ "Nope" ++ "' or unique ID '" ++ "Foo" ++ "' do not exist") :=
  ⟨((lookup_notFound_spec ⟨[("Foo", [("Bar", "Baz")])]⟩ "Nope" "Bar").1 rfl).1,
   ((lookup_notFound_spec ⟨[("Foo", [("Bar", "Baz")])]⟩ "Nope" "Bar").1 rfl).2.1,
   ((lookup_notFound_spec ⟨[("Foo", [("Bar", "Baz")])]⟩ "Nope" "Bar").1 rfl).2.2 "Bar",
   (lookup_notFound_spec ⟨[("Foo", [("Bar", "Baz")])]⟩ "Foo" "Nope").2.1
     [("Bar", "Baz")] rfl rfl⟩

/-- Claim C6: when the identifier is absent, both `setKeyStrict` (the
three-argument `add`) and `upsert` (update) succeed, silently creating the
entry for the identifier; afterwards the identifier exists and the value
reads back. -/
theorem implicit_creation (m : Metadata) (id k v : String)
    (h : m.contains id = false) :
    (∃ m', m.addKV id k v = .ok m' ∧ m'.contains id = true ∧
      m'.value id k = .ok v) ∧
    (∃ m', m.update id k v = .ok m' ∧ m'.contains id = true ∧
      m'.value id k = .ok v) := by
  constructor
  · refine ⟨⟨mapAssign (mapInsert m.metadata id []).1 id [(k, v)]⟩,
      addKV_ok_of_absent h, ?_, ?_⟩
    · exact contains_true_of_at_some (mapAt?_mapAssign_self _ _ _)
    · exact value_of_at_some (mapAt?_mapAssign_self _ _ _)
        (by rw [mapAt?_cons]; simp)
  · obtain ⟨m', h1, h2⟩ := update_ok_value m id k v
    obtain ⟨M1, d, hM1, hat, hm⟩ := update_ok_shape h1
    refine ⟨m', h1, ?_, h2⟩
    exact contains_true_of_at_some
      (by rw [hm]; exact mapAt?_mapAssign_self _ _ _)

/-- Witness for C6: implicit creation on the empty store. -/
theorem implicit_creation_witness :
    (∃ m', Metadata.empty.addKV "Foo" "Bar" "Baz" = .ok m' ∧
      m'.contains "Foo" = true ∧ m'.value "Foo" "Bar" = .ok "Baz") ∧
    (∃ m', Metadata.empty.update "Foo" "Bar" "Baz" = .ok m' ∧
      m'.contains "Foo" = true ∧ m'.value "Foo" "Bar" = .ok "Baz") :=
  implicit_creation Metadata.empty "Foo" "Bar" "Baz" rfl

/-- Claim C7: `deleteEntry` and `deleteKey` are total functions of the
store — in the embedding they return a store unconditionally, as the source
never throws on these paths, absent ids and keys included — and both are
idempotent: erasing twice yields the same state as erasing once. -/
theorem delete_idempotent (m : Metadata) (id k : String) :
    (m.erase id).erase id = m.erase id ∧
    (m.eraseKey id k).eraseKey id k = m.eraseKey id k := by
  constructor
  · exact Metadata.eq_of_eq_metadata (mapErase_mapErase _ _)
  · by_cases hc : m.contains id = true
    · obtain ⟨d, hd⟩ := Option.isSome_iff_exists.mp
        (by rw [← contains_eq_isSome]; exact hc)
      have h1 : m.eraseKey id k = ⟨mapAssign m.metadata id (mapErase d k)⟩ :=
        eraseKey_of_at_some hd
      have h2 : (⟨mapAssign m.metadata id (mapErase d k)⟩ : Metadata).eraseKey id k
          = ⟨mapAssign (mapAssign m.metadata id (mapErase d k)) id
              (mapErase (mapErase d k) k)⟩ :=
        eraseKey_of_at_some (mapAt?_mapAssign_self _ _ _)
      rw [h1, h2, mapErase_mapErase]
      exact Metadata.eq_of_eq_metadata (mapAssign_mapAssign _ _ _ _)
    · have hcf : m.contains id = false := by simpa using hc
      rw [eraseKey_of_not_contains hcf, eraseKey_of_not_contains hcf]

/-- Claim C8: `entryHasKey` (idContains) is true exactly when the
identifier is present and its entry contains the key; it returns false —
not an error — when the identifier is absent; and a key present with the
empty-string value still reports true, so absence and emptiness are
distinguishable states. -/
theorem entryHasKey_spec (m : Metadata) (id k : String) :
    (m.idContains id k = true ↔
      ∃ d, mapAt? m.metadata id = some d ∧ mapContains d k = true) ∧
    (mapAt? m.metadata id = none → m.idContains id k = false) ∧
    (∀ d, mapAt? m.metadata id = some d → mapAt? d k = some "" →
      m.idContains id k = true) := by
  refine ⟨idContains_eq m id k, ?_, ?_⟩
  · intro h
    exact idContains_false_of_not_contains (contains_false_of_at_none h)
  · intro d hd hk
    exact idContains_of_at_some hd (by rw [hk]; rfl)

/-- Witness for C8: concrete absent identifier and empty-valued key. -/
theorem entryHasKey_spec_witness :
    (⟨[("Foo", [("Bar", "")])]⟩ : Metadata).idContains "Nope" "Bar" = false ∧
    (⟨[("Foo", [("Bar", "")])]⟩ : Metadata).idContains "Foo" "Bar" = true :=
  ⟨(entryHasKey_spec ⟨[("Foo", [("Bar", "")])]⟩ "Nope" "Bar").2.1 rfl,
   (entryHasKey_spec ⟨[("Foo", [("Bar", "")])]⟩ "Foo" "Bar").2.2
     [("Bar", "")] rfl rfl⟩

/-- Claim C9: every store reachable through the API from the empty store —
by createEntry, setKeyStrict, upsert, deleteEntry, deleteKey or fromJson —
satisfies the representation invariant (both map levels strictly sorted),
and in such a store every present identifier maps to an entry: the lookup
behind the iteration succeeds.  Non-nullness of entries is a representation
fact of the embedding: entries are held by value, and no operation ever
stores a null pointer. -/
theorem reachable_wf (m : Metadata) (h : Reachable m) :
    m.WF ∧ ∀ id, m.contains id = true → ∃ d, mapAt? m.metadata id = some d := by
  have hwf : m.WF := by
    induction h with
    | empty => exact wf_empty
    | add hr hok ih => exact wf_add ih hok
    | addKV hr hok ih => exact wf_addKV ih hok
    | update hr hok ih => exact wf_update ih hok
    | erase hr ih => exact wf_erase ih
    | eraseKey hr ih => exact wf_eraseKey ih
    | fromJson => exact wf_fromJson _ _
  refine ⟨hwf, ?_⟩
  intro id hc
  exact Option.isSome_iff_exists.mp (by rw [← contains_eq_isSome]; exact hc)

/-- Witness for C9: the store reached by one `createEntry`. -/
theorem reachable_wf_witness :
    (⟨[("Foo", [])]⟩ : Metadata).WF ∧
    ∃ d, mapAt? (⟨[("Foo", [])]⟩ : Metadata).metadata "Foo" = some d :=
  ⟨(reachable_wf ⟨[("Foo", [])]⟩ (.add .empty rfl)).1,
   (reachable_wf ⟨[("Foo", [])]⟩ (.add .empty rfl)).2 "Foo" rfl⟩

/-- Claim C10: on a well-formed store, `listIdentifiers` (ids) returns the
identifiers in strictly ascending lexicographic order with no duplicates,
and `listKeys` (keys) of any present identifier returns that entry's keys
in strictly ascending lexicographic order with no duplicates. -/
theorem listings_sorted (m : Metadata) (h : m.WF) :
    m.ids.Pairwise (fun a b => a < b) ∧ m.ids.Nodup ∧
    ∀ id ks, m.keys id = .ok ks →
      ks.Pairwise (fun a b => a < b) ∧ ks.Nodup := by
  have hids : m.ids.Pairwise (fun a b => a < b) := by
    unfold Metadata.ids
    exact List.pairwise_map.mpr h.1
  refine ⟨hids, hids.imp ne_of_lt, ?_⟩
  intro id ks hks
  obtain ⟨d, hd, rfl⟩ := keys_ok_shape hks
  have hsorted : SortedKeys d := h.2 (id, d) (mem_of_mapAt? hd)
  have hkeys : (d.map (fun p => p.1)).Pairwise (fun a b => a < b) :=
    List.pairwise_map.mpr hsorted
  exact ⟨hkeys, hkeys.imp ne_of_lt⟩

/-- Witness for C10: a concrete two-identifier store. -/
theorem listings_sorted_witness :
    (⟨[("Bar", [("A", "1"), ("B", "2")]), ("Foo", [])]⟩ : Metadata).ids.Pairwise
      (fun a b => a < b) ∧
    (⟨[("Bar", [("A", "1"), ("B", "2")]), ("Foo", [])]⟩ : Metadata).ids.Nodup ∧
    (["A", "B"].Pairwise (fun a b : String => a < b) ∧ ["A", "B"].Nodup) :=
  ⟨(listings_sorted ⟨[("Bar", [("A", "1"), ("B", "2")]), ("Foo", [])]⟩
      (by decide)).1,
   (listings_sorted ⟨[("Bar", [("A", "1"), ("B", "2")]), ("Foo", [])]⟩
      (by decide)).2.1,
   (listings_sorted ⟨[("Bar", [("A", "1"), ("B", "2")]), ("Foo", [])]⟩
      (by decide)).2.2 "Bar" ["A", "B"] rfl⟩
